import Mathlib

/-!
Verification of the simple-queue repository core (src/src/queue/Queue.ts,
src/src/queue/storage.ts, src/src/queue/QueueManager.ts and the notification
service) against its natural-language specification.

The TypeScript classes are shallowly embedded as pure Lean functions over an
explicit state record.  A JS Map is represented as an association list in
insertion order (JS Map iteration order is insertion order); a JS Set as a
list of ids in insertion order.  Timestamps (Date.getTime()) are naturals,
priorities are integers.  The ambient effects of the source (uuidv4() and
new Date()) become explicit arguments of enqueue.
-/

namespace SimpleQueue

/-- Embeds QueueItem of src/src/queue/types.ts.  The optional fields priority
and processingAttempts are always populated by enqueue, so they are total
here. -/
structure QueueItem (α : Type) where
  id : String
  data : α
  addedAt : Nat
  priority : Int
  processingAttempts : Nat
deriving Repr, DecidableEq

/-- Embeds QueueOptions of types.ts: every field is optional. -/
structure QueueOptions where
  maxSize : Option Nat := none
  retryLimit : Option Nat := none
  priorityEnabled : Option Bool := none
deriving Repr, DecidableEq

/-- Embeds the Queue class state: the items Map, the processing Set and the
resolved Required QueueOptions fields. -/
structure Queue (α : Type) where
  items : List (String × QueueItem α)
  processing : List String
  maxSize : Nat
  retryLimit : Nat
  priorityEnabled : Bool
deriving Repr, DecidableEq

/-- JS Map.prototype.set: replaces the value in place if the key is present,
otherwise appends the new entry (insertion order). -/
def mapSet (k : String) (v : β) : List (String × β) → List (String × β)
  | [] => [(k, v)]
  | (k', v') :: rest => if k' = k then (k, v) :: rest else (k', v') :: mapSet k v rest

/-- JS Map.prototype.get. -/
def mapGet (k : String) (l : List (String × β)) : Option β :=
  (l.find? (fun kv => kv.1 = k)).map (fun kv => kv.2)

/-- JS Map.prototype.delete (Map keys are unique, so removing every entry
with the key is the same as removing the single one). -/
def mapDelete (k : String) (l : List (String × β)) : List (String × β) :=
  l.filter (fun kv => kv.1 ≠ k)

/-- JS Set.prototype.add (no-op when already present, else appended). -/
def setAdd (id : String) (l : List String) : List String :=
  if l.contains id then l else l ++ [id]

/-- JS Set.prototype.delete. -/
def setDelete (id : String) (l : List String) : List String :=
  l.filter (fun x => x ≠ id)

/-- The JS expression options.maxSize || default: 0 and undefined are falsy,
so both are silently replaced by the default. -/
def jsOrNat (v : Option Nat) (d : Nat) : Nat :=
  match v with
  | none => d
  | some n => if n = 0 then d else n

/-- The JS expression options.priorityEnabled || false. -/
def jsOrBool (v : Option Bool) (d : Bool) : Bool :=
  match v with
  | none => d
  | some b => b || d

/-- Embeds the Queue constructor (Queue.ts lines 12-20). -/
def Queue.new (options : QueueOptions) : Queue α :=
  { items := []
    processing := []
    maxSize := jsOrNat options.maxSize 1000
    retryLimit := jsOrNat options.retryLimit 3
    priorityEnabled := jsOrBool options.priorityEnabled false }

/-- Embeds Queue.enqueue (Queue.ts lines 54-72).  uuidv4() and new Date()
are ambient effects of the source and become the freshId and now arguments;
a full queue throws, embedded as Except.error. -/
def enqueue (s : Queue α) (data : α) (priority : Int) (freshId : String) (now : Nat) :
    Except String (String × Queue α) :=
  if s.items.length ≥ s.maxSize then
    .error "Queue is full"
  else
    let item : QueueItem α :=
      { id := freshId
        data := data
        addedAt := now
        priority := if s.priorityEnabled then priority else 0
        processingAttempts := 0 }
    .ok (freshId, { s with items := mapSet freshId item s.items })

/-- The comparator of dequeue and peek as a boolean total preorder:
le a b holds when the JS comparator puts a no later than b, i.e. its
numeric result on (a, b) is non-positive.  With priorities the comparator is
(a, b) => b.priority - a.priority, tie-broken by a.addedAt - b.addedAt;
without, it is a.addedAt - b.addedAt alone. -/
def dequeueLE (priorityEnabled : Bool) (a b : QueueItem α) : Bool :=
  if priorityEnabled then
    if a.priority = b.priority then decide (a.addedAt ≤ b.addedAt)
    else decide (b.priority < a.priority)
  else decide (a.addedAt ≤ b.addedAt)

/-- Inserts x into an already sorted list, before the first element z with
le x z.  Used to model Array.prototype.sort, which is a stable sort. -/
def insertStable (le : β → β → Bool) (x : β) : List β → List β
  | [] => [x]
  | z :: zs => if le x z then x :: z :: zs else z :: insertStable le x zs

/-- Stable insertion sort.  Array.prototype.sort with a consistent comparator
is specified (ES2019) to be a stable sort, and a stable sort of a list under
a total preorder is unique, so this function is extensionally the sort the
source calls. -/
def jsSort (le : β → β → Bool) : List β → List β
  | [] => []
  | y :: ys => insertStable le y (jsSort le ys)

/-- The items not currently being processed (Queue.ts lines 80-81 and
205-206): Map values in insertion order, filtered on the processing set. -/
def availableItems (s : Queue α) : List (QueueItem α) :=
  (s.items.map Prod.snd).filter (fun it => !s.processing.contains it.id)

/-- Embeds Queue.dequeue (Queue.ts lines 74-108): if the map is empty or no
item is available, returns null and leaves the state unchanged; otherwise
sorts the available items with the comparator and takes index 0, marking
that item as processing. -/
def dequeue (s : Queue α) : Option (QueueItem α) × Queue α :=
  if s.items.isEmpty then (none, s)
  else
    match jsSort (dequeueLE s.priorityEnabled) (availableItems s) with
    | [] => (none, s)
    | nextItem :: _ =>
      (some nextItem, { s with processing := setAdd nextItem.id s.processing })

/-- Embeds Queue.peek (Queue.ts lines 199-227): same selection as dequeue,
no state change. -/
def peek (s : Queue α) : Option (QueueItem α) :=
  if s.items.isEmpty then none
  else
    match jsSort (dequeueLE s.priorityEnabled) (availableItems s) with
    | [] => none
    | nextItem :: _ => some nextItem

/-- Embeds Queue.complete (Queue.ts lines 110-122). -/
def complete (s : Queue α) (id : String) : Bool × Queue α :=
  if !s.processing.contains id then (false, s)
  else
    (true, { s with processing := setDelete id s.processing
                    items := mapDelete id s.items })

/-- Embeds Queue.retry (Queue.ts lines 124-153). -/
def retry (s : Queue α) (id : String) : Bool × Queue α :=
  if !s.processing.contains id then (false, s)
  else
    match mapGet id s.items with
    | none => (false, s)
    | some item =>
      if item.processingAttempts ≥ s.retryLimit then
        (false, { s with processing := setDelete id s.processing
                         items := mapDelete id s.items })
      else
        let updated := { item with processingAttempts := item.processingAttempts + 1 }
        (true, { s with items := mapSet id updated s.items
                        processing := setDelete id s.processing })

/-- Embeds Queue.size (Queue.ts lines 183-185). -/
def size (s : Queue α) : Nat := s.items.length

/-- Embeds Queue.clear (Queue.ts lines 187-193). -/
def clear (s : Queue α) : Queue α :=
  { s with items := [], processing := [] }

/-- The comparator of browse as a boolean total preorder (Queue.ts lines
240-256): non-processing items first, then by priority descending when
enabled and priorities differ, then by addedAt ascending. -/
def browseLE (priorityEnabled : Bool) (processing : List String) (a b : QueueItem α) : Bool :=
  let aP : Nat := if processing.contains a.id then 1 else 0
  let bP : Nat := if processing.contains b.id then 1 else 0
  if aP = bP then
    if priorityEnabled && !(a.priority = b.priority) then decide (b.priority < a.priority)
    else decide (a.addedAt ≤ b.addedAt)
  else decide (aP < bP)

/-- Embeds Queue.browse (Queue.ts lines 234-258). -/
def browse (s : Queue α) (limit : Nat) : List (QueueItem α) :=
  (jsSort (browseLE s.priorityEnabled s.processing) (s.items.map Prod.snd)).take limit

/-- Embeds Queue.dequeueMany (Queue.ts lines 265-278). -/
def dequeueMany (s : Queue α) : Nat → List (QueueItem α) × Queue α
  | 0 => ([], s)
  | n + 1 =>
    match dequeue s with
    | (none, s') => ([], s')
    | (some it, s') =>
      let r := dequeueMany s' n
      (it :: r.1, r.2)

/-- Embeds Queue.completeMany (Queue.ts lines 285-298): applies complete to
each id in order, accumulating succeeded and failed counts. -/
def completeMany (s : Queue α) (ids : List String) : (Nat × Nat) × Queue α :=
  ids.foldl
    (fun acc id =>
      match complete acc.2 id with
      | (true, st) => ((acc.1.1 + 1, acc.1.2), st)
      | (false, st) => ((acc.1.1, acc.1.2 + 1), st))
    ((0, 0), s)

/-- Embeds Queue.retryMany (Queue.ts lines 305-318). -/
def retryMany (s : Queue α) (ids : List String) : (Nat × Nat) × Queue α :=
  ids.foldl
    (fun acc id =>
      match retry acc.2 id with
      | (true, st) => ((acc.1.1 + 1, acc.1.2), st)
      | (false, st) => ((acc.1.1, acc.1.2 + 1), st))
    ((0, 0), s)

/-- Outcome of awaiting one processor call: a boolean result, or a thrown
error. -/
inductive ProcOutcome where
  | ok (success : Bool)
  | threw
deriving Repr, DecidableEq

/-- The processor loop body of Queue.processNext (Queue.ts lines 165-180).
The try block wraps the whole for loop, so a thrown processor jumps to the
catch clause, which retries the item and returns false; a processor
returning false continues with the next processor; the first success
completes the item and returns true; if the list is exhausted the item is
retried. -/
def processLoop (s : Queue α) (item : QueueItem α) :
    List (QueueItem α → ProcOutcome) → Bool × Queue α
  | [] => (false, (retry s item.id).2)
  | p :: rest =>
    match p item with
    | .threw => (false, (retry s item.id).2)
    | .ok true => (true, (complete s item.id).2)
    | .ok false => processLoop s item rest

/-- Embeds Queue.processNext (Queue.ts lines 159-181).  The registered
processors (in registration order) are passed explicitly, each modelled by
the outcome it produces on the dequeued item. -/
def processNext (s : Queue α) (procs : List (QueueItem α → ProcOutcome)) : Bool × Queue α :=
  match dequeue s with
  | (none, s') => (false, s')
  | (some item, s') => processLoop s' item procs

/-! ### Storage (src/src/queue/storage.ts)

FileStorageAdapter.save serializes the items Map as an array of entries and
the processing Set as an array of ids (JSON.stringify), and load rebuilds
the Map, turning each stored addedAt string back into a Date.  The byte
level is elided: the snapshot is modelled structurally as what
JSON.parse(JSON.stringify(data)) yields.  JSON.stringify serializes a Date
as its ISO-8601 string and new Date(isoString) restores the same
millisecond instant; this codec pair is modelled by a decimal rendering of
the millisecond count with its parser.  The caller payload data is assumed
JSON-representable, so its serialization is the identity. -/

/-- Decimal digit to character, as in the ISO rendering of a timestamp. -/
def digitToChar (d : Nat) : Char := Nat.digitChar d

/-- Character back to its decimal digit value. -/
def charToDigit (c : Char) : Nat := c.toNat - 48

/-- Models Date serialization through JSON.stringify: the millisecond
instant rendered as a decimal string (most significant digit first). -/
def dateToString (t : Nat) : String :=
  String.mk (((Nat.digits 10 t).map digitToChar).reverse)

/-- Models new Date(storedString).getTime(): parses the decimal rendering
back to the millisecond instant. -/
def stringToDate (s : String) : Nat :=
  Nat.ofDigits 10 ((s.data.map charToDigit).reverse)

/-- One item as it appears in the persisted snapshot: addedAt has become a
string, every other field is stored as-is. -/
structure StoredItem (α : Type) where
  id : String
  data : α
  addedAt : String
  priority : Int
  processingAttempts : Nat
deriving Repr, DecidableEq

/-- The persisted snapshot of one queue (storage.ts lines 23-26): the full
item mapping as an entry list plus the processing ids. -/
structure Snapshot (α : Type) where
  items : List (String × StoredItem α)
  processing : List String
deriving Repr, DecidableEq

/-- Embeds FileStorageAdapter.save (storage.ts lines 22-37). -/
def FileStorageAdapter.save (items : List (String × QueueItem α)) (processing : List String) :
    Snapshot α :=
  { items := items.map (fun kv =>
      (kv.1,
        { id := kv.2.id
          data := kv.2.data
          addedAt := dateToString kv.2.addedAt
          priority := kv.2.priority
          processingAttempts := kv.2.processingAttempts }))
    processing := processing }

/-- Embeds the success path of FileStorageAdapter.load (storage.ts lines
53-67): rebuilds the Map from the parsed entries, converting each stored
addedAt string back into a Date, and the Set from the stored id list. -/
def FileStorageAdapter.load (snap : Snapshot α) :
    List (String × QueueItem α) × List String :=
  (snap.items.map (fun kv =>
      (kv.1,
        { id := kv.2.id
          data := kv.2.data
          addedAt := stringToDate kv.2.addedAt
          priority := kv.2.priority
          processingAttempts := kv.2.processingAttempts })),
   snap.processing)

/-! ### QueueManager.saveAllQueues (src/src/queue/QueueManager.ts)

Queue.saveToStorage (Queue.ts lines 39-45) is an async method: when no
adapter is set its throw surfaces as a rejected promise, never as a
synchronous exception, and an adapter write failure also rejects.  For
saveAllQueues only the persistence outcome of each queue matters, so a
managed queue is modelled by its optional adapter, an adapter by the
outcome its write would produce. -/

/-- A storage adapter, modelled by the outcome of its save. -/
structure AdapterModel where
  saveResult : Except String Unit
deriving Repr

/-- A registered queue as saveAllQueues sees it. -/
structure ManagedQueue where
  storageAdapter : Option AdapterModel
deriving Repr

/-- Embeds Queue.saveToStorage (Queue.ts lines 39-45) as the promise it
returns: rejected with the thrown message when no adapter is set, else the
outcome of the adapter write. -/
def saveToStorage (q : ManagedQueue) : Except String Unit :=
  match q.storageAdapter with
  | none => .error "No storage adapter set"
  | some a => a.saveResult

/-- Embeds QueueManager.saveAllQueues (QueueManager.ts lines 38-50).  The
loop calls saveToStorage on every registered queue and pushes the returned
promise; calling an async method never throws synchronously, so the
try/catch around the push catches nothing and every save is initiated.
Promise.all then rejects with the first rejection, if any.  The result is
the list of per-queue outcomes (each save was started) together with the
settlement of the promise saveAllQueues returns. -/
def saveAllQueues (queues : List ManagedQueue) :
    List (Except String Unit) × Except String Unit :=
  let promises := queues.map saveToStorage
  (promises,
    match promises.find? (fun p => !p.isOk) with
    | some (.error e) => .error e
    | _ => .ok ())

/-! ### Notification layer

The event types and filter options are from src/src/queue/types.ts; the
subscriber wrapper is from QueueNotificationService.subscribeToQueue
(src/unnamed/part_003 lines 29-69). -/

/-- Embeds QueueEventType of types.ts. -/
inductive QueueEventType where
  | batchReady
  | queueComplete
  | itemAdded
  | itemProcessed
  | queueEmpty
deriving Repr, DecidableEq

/-- Embeds QueueEvent of types.ts (the data payload kept to the affected
item, the part the claims need). -/
structure QueueEvent (α : Type) where
  type : QueueEventType
  queueName : String
  timestamp : Nat
  item : Option (QueueItem α)

/-- Embeds NotificationOptions of types.ts. -/
structure NotificationOptions (α : Type) where
  eventTypes : Option (List QueueEventType) := none
  filterFn : Option (QueueEvent α → Bool) := none

/-- The filtering wrapper that subscribeToQueue registers on the queue
(part_003 lines 37-52): drops the event when an eventTypes allow-list is
given and does not include the event type, then when a filterFn is given
and returns false; otherwise forwards it to the wrapped subscriber.
Returns whether the wrapped subscriber receives the event.  A subscriber
registered with no options (options undefined) is modelled by none. -/
def wrapperDelivers (options : Option (NotificationOptions α)) (event : QueueEvent α) : Bool :=
  let typeDropped :=
    match options with
    | some o =>
      match o.eventTypes with
      | some types => !types.contains event.type
      | none => false
    | none => false
  let filterDropped :=
    match options with
    | some o =>
      match o.filterFn with
      | some f => !f event
      | none => false
    | none => false
  if typeDropped then false
  else if filterDropped then false
  else true

/-- Modelled from the spec: the event-emitting variant of Queue.complete.
The Queue class carrying subscribe/unsubscribe and event emission is called
by the notification service but is not among the source files; per spec
section 4.2, complete succeeds only if id is currently in-flight, removes
it from the in-flight set and the mapping, emits itemProcessed carrying the
affected item, and emits queueEmpty if the mapping is now empty.  This
returns the events emitted by complete on the given state. -/
def completeEvents (s : Queue α) (id : String) (queueName : String) (now : Nat) :
    List (QueueEvent α) :=
  if s.processing.contains id then
    match mapGet id s.items with
    | some item =>
      let s' := (complete s id).2
      { type := .itemProcessed, queueName := queueName, timestamp := now, item := some item } ::
        (if s'.items.isEmpty then
          [{ type := .queueEmpty, queueName := queueName, timestamp := now, item := none }]
        else [])
    | none => []
  else []

/-! ### Operation sequences -/

/-- One public mutating or reading call on a queue, used to state reachable
state invariants.  The enqueue case carries the ambient uuid and Date. -/
inductive QueueOp (α : Type) where
  | enqueue (data : α) (priority : Int) (freshId : String) (now : Nat)
  | dequeue
  | peek
  | complete (id : String)
  | retry (id : String)
  | clear
  | dequeueMany (count : Nat)
  | completeMany (ids : List String)
  | retryMany (ids : List String)

/-- Applies one public operation to the state.  A throwing enqueue (queue
full) leaves the state unchanged. -/
def applyOp (s : Queue α) : QueueOp α → Queue α
  | .enqueue d p f n =>
    match enqueue s d p f n with
    | .ok r => r.2
    | .error _ => s
  | .dequeue => (dequeue s).2
  | .peek => s
  | .complete id => (complete s id).2
  | .retry id => (retry s id).2
  | .clear => clear s
  | .dequeueMany n => (dequeueMany s n).2
  | .completeMany ids => (completeMany s ids).2
  | .retryMany ids => (retryMany s ids).2

/-- Applies a sequence of public operations in order. -/
def applyOps (s : Queue α) (ops : List (QueueOp α)) : Queue α :=
  ops.foldl applyOp s

/-- One enqueue call of a pure enqueue phase, with its ambient uuid and
Date. -/
structure EnqueueCall (α : Type) where
  data : α
  priority : Int
  freshId : String
  now : Nat

/-- Applies a sequence of enqueue calls; a throwing call (queue full)
leaves the state unchanged. -/
def applyEnqueues (s : Queue α) : List (EnqueueCall α) → Queue α
  | [] => s
  | c :: cs =>
    match enqueue s c.data c.priority c.freshId c.now with
    | .ok r => applyEnqueues r.2 cs
    | .error _ => applyEnqueues s cs

/-- Two concrete enqueue calls with distinct ids and non-decreasing
timestamps. -/
def callsW : List (EnqueueCall Nat) :=
  [{ data := 10, priority := 1, freshId := "a", now := 100 },
   { data := 20, priority := 5, freshId := "b", now := 101 }]

/-- The item an enqueue call stores when it does not throw (the object
literal of Queue.ts lines 60-66). -/
def mkEnqueuedItem (priorityEnabled : Bool) (c : EnqueueCall α) : QueueItem α :=
  { id := c.freshId
    data := c.data
    addedAt := c.now
    priority := if priorityEnabled then c.priority else 0
    processingAttempts := 0 }

/-- The successive results of n dequeue calls, stopping at the first empty
result. -/
def dequeueSeq (s : Queue α) : Nat → List (QueueItem α)
  | 0 => []
  | n + 1 =>
    match dequeue s with
    | (none, _) => []
    | (some it, s') => it :: dequeueSeq s' n

/-- The single-item start state of the retry exhaustion scenario: one item
mapped under its id, nothing in flight. -/
def startState (it : QueueItem α) (i : String) (M r : Nat) (pb : Bool) : Queue α :=
  { items := [(i, it)], processing := [], maxSize := M, retryLimit := r, priorityEnabled := pb }

/-- k rounds of dequeue followed by retry of the given id, as in the retry
exhaustion scenario. -/
def dequeueRetryCycles (i : String) : Nat → Queue α → Queue α
  | 0, s => s
  | k + 1, s => dequeueRetryCycles i k (retry (dequeue s).2 i).2

/-- The branch retry takes, mirroring the control flow of Queue.retry
(Queue.ts lines 124-153) exactly. -/
inductive RetryPath where
  | notInFlight
  | missingItem
  | exhausted
  | released
deriving Repr, DecidableEq

/-- Which branch of Queue.retry runs on the given state and id; the
missingItem case is the defensive lookup failure at lines 129-132. -/
def retryPath (s : Queue α) (id : String) : RetryPath :=
  if !s.processing.contains id then .notInFlight
  else
    match mapGet id s.items with
    | none => .missingItem
    | some item =>
      if item.processingAttempts ≥ s.retryLimit then .exhausted
      else .released

/-! ## Example states used to instantiate theorems with hypotheses -/

/-- A small example item. -/
def exampleItem : QueueItem Nat :=
  { id := "w", data := 0, addedAt := 5, priority := 2, processingAttempts := 0 }

/-- A small example state: one item, currently in flight. -/
def exampleState : Queue Nat :=
  { items := [("w", exampleItem)]
    processing := ["w"]
    maxSize := 10
    retryLimit := 3
    priorityEnabled := false }

/-- Three items a, b and c, with a and c in flight and b never dequeued. -/
def witnessStateC7 : Queue Nat :=
  { items := [("a", { id := "a", data := 1, addedAt := 0, priority := 0, processingAttempts := 0 }),
              ("b", { id := "b", data := 2, addedAt := 1, priority := 0, processingAttempts := 0 }),
              ("c", { id := "c", data := 3, addedAt := 2, priority := 0, processingAttempts := 0 })]
    processing := ["a", "c"]
    maxSize := 10
    retryLimit := 3
    priorityEnabled := false }

/-- The in-flight subset invariant of spec section 3: every in-flight id
has an entry in the items mapping. -/
def InFlightSubset (s : Queue α) : Prop :=
  ∀ id ∈ s.processing, (mapGet id s.items).isSome = true

/-- Every mapped item records its own key as its id field; true of every
state the class itself builds, and needed because dequeue marks
in-flight by the id field of the selected value. -/
def ItemIdsMatchKeys (s : Queue α) : Prop :=
  ∀ kv ∈ s.items, kv.2.id = kv.1

/-- The conjunction of the two structural invariants. -/
def QueueWF (s : Queue α) : Prop :=
  ItemIdsMatchKeys s ∧ InFlightSubset s

/-- A one-item example payload for the processor claims. -/
def itemP : QueueItem Nat :=
  { id := "p", data := 5, addedAt := 0, priority := 0, processingAttempts := 0 }

/-- A processor list whose first processor throws and whose second
succeeds. -/
def procsW : List (QueueItem Nat → ProcOutcome) :=
  [fun _ => ProcOutcome.threw, fun _ => ProcOutcome.ok true]

/-! ## Helper lemmas -/

theorem mapGet_nil {β : Type} (x : String) : mapGet x ([] : List (String × β)) = none := rfl

theorem mapGet_cons_pos {β : Type} {kv : String × β} {l : List (String × β)} {x : String}
    (h : kv.1 = x) : mapGet x (kv :: l) = some kv.2 := by
  unfold mapGet
  rw [List.find?_cons_of_pos _ (by simpa using h)]
  rfl

theorem mapGet_cons_neg {β : Type} {kv : String × β} {l : List (String × β)} {x : String}
    (h : kv.1 ≠ x) : mapGet x (kv :: l) = mapGet x l := by
  unfold mapGet
  rw [List.find?_cons_of_neg _ (by simpa using h)]

theorem mapGet_mapSet {β : Type} (k x : String) (v : β) (l : List (String × β)) :
    mapGet x (mapSet k v l) = if x = k then some v else mapGet x l := by
  induction l with
  | nil =>
    by_cases h : x = k
    · subst h
      simp [mapSet, mapGet_cons_pos]
    · simp only [mapSet, if_neg h]
      rw [mapGet_cons_neg (fun hh => h hh.symm), mapGet_nil]
  | cons kv rest ih =>
    by_cases hk : kv.1 = k
    · simp only [mapSet, if_pos hk]
      by_cases hx : x = k
      · subst hx
        rw [if_pos rfl]
        exact mapGet_cons_pos rfl
      · have h1 : ¬ ((k : String) = x) := fun hh => hx hh.symm
        have h2 : kv.1 ≠ x := hk ▸ h1
        rw [mapGet_cons_neg h1, mapGet_cons_neg h2, if_neg hx]
    · simp only [mapSet, if_neg hk]
      by_cases hx : kv.1 = x
      · have hxk : ¬ (x = k) := fun hh => hk (hx.symm ▸ hh ▸ rfl)
        rw [mapGet_cons_pos hx, mapGet_cons_pos hx, if_neg hxk]
      · rw [mapGet_cons_neg hx, mapGet_cons_neg hx, ih]

theorem mapGet_mapDelete_ne {β : Type} {x k : String} (l : List (String × β)) (h : x ≠ k) :
    mapGet x (mapDelete k l) = mapGet x l := by
  induction l with
  | nil => rfl
  | cons kv rest ih =>
    by_cases hk : kv.1 = k
    · have hx : kv.1 ≠ x := fun hh => h (hh ▸ hk ▸ rfl)
      have : mapDelete k (kv :: rest) = mapDelete k rest := by
        simp [mapDelete, hk]
      rw [this, ih, mapGet_cons_neg hx]
    · have : mapDelete k (kv :: rest) = kv :: mapDelete k rest := by
        simp [mapDelete, hk]
      rw [this]
      by_cases hx : kv.1 = x
      · rw [mapGet_cons_pos hx, mapGet_cons_pos hx]
      · rw [mapGet_cons_neg hx, mapGet_cons_neg hx, ih]

theorem mapGet_eq_some_elim {β : Type} {x : String} {v : β} {l : List (String × β)}
    (h : mapGet x l = some v) : (x, v) ∈ l := by
  unfold mapGet at h
  rcases hf : l.find? (fun kv => kv.1 = x) with _ | kv
  · rw [hf] at h; simp at h
  · rw [hf] at h
    simp at h
    have hm := List.mem_of_find?_eq_some hf
    have hp := List.find?_some hf
    simp at hp
    rcases kv with ⟨k', v'⟩
    simp at hp
    subst hp
    rw [← h]
    exact hm

theorem mapGet_isSome_of_mem {β : Type} {kv : String × β} {l : List (String × β)}
    (h : kv ∈ l) : (mapGet kv.1 l).isSome = true := by
  induction l with
  | nil => simp at h
  | cons kv' rest ih =>
    by_cases hk : kv'.1 = kv.1
    · simp [mapGet, List.find?, hk]
    · rcases List.mem_cons.mp h with h' | h'
      · exact absurd (h' ▸ rfl) hk
      · simp [mapGet, List.find?, hk] at ih ⊢
        exact ih h'

theorem contains_iff_mem (l : List String) (x : String) : l.contains x = true ↔ x ∈ l := by
  simp [List.contains]

theorem contains_setAdd (l : List String) (k x : String) :
    (setAdd k l).contains x = (l.contains x || x == k) := by
  unfold setAdd
  by_cases hk : l.contains k = true
  · simp only [hk, if_true]
    by_cases hx : x = k
    · subst hx
      simp_all
    · simp_all
  · simp only [Bool.not_eq_true] at hk
    simp only [hk, if_false]
    by_cases hx : x = k <;> simp_all

theorem contains_setDelete (l : List String) (k x : String) :
    (setDelete k l).contains x = (l.contains x && !(x == k)) := by
  unfold setDelete
  by_cases hx : x = k
  · simp_all [List.mem_filter]
  · simp_all [List.mem_filter]

theorem mapSet_eq_append {β : Type} {k : String} {v : β} {l : List (String × β)}
    (h : ∀ kv ∈ l, kv.1 ≠ k) : mapSet k v l = l ++ [(k, v)] := by
  induction l with
  | nil => rfl
  | cons kv rest ih =>
    have hk : kv.1 ≠ k := h kv (List.mem_cons_self kv rest)
    simp [mapSet, hk]
    exact ih (fun kv' h' => h kv' (List.mem_cons_of_mem kv h'))

theorem complete_false_of_not_inflight {α : Type} (s : Queue α) (id : String)
    (h : s.processing.contains id = false) : complete s id = (false, s) := by
  unfold complete
  rw [h]
  rfl

theorem complete_true_of_inflight {α : Type} (s : Queue α) (id : String)
    (h : s.processing.contains id = true) :
    complete s id =
      (true, { s with processing := setDelete id s.processing, items := mapDelete id s.items }) := by
  unfold complete
  rw [h]
  rfl

theorem retry_false_of_not_inflight {α : Type} (s : Queue α) (id : String)
    (h : s.processing.contains id = false) : retry s id = (false, s) := by
  unfold retry
  rw [h]
  rfl

theorem retry_exhausted_of_limit {α : Type} (s : Queue α) (id : String) (item : QueueItem α)
    (hin : s.processing.contains id = true) (hget : mapGet id s.items = some item)
    (hge : item.processingAttempts ≥ s.retryLimit) :
    retry s id =
      (false, { s with processing := setDelete id s.processing, items := mapDelete id s.items }) := by
  have hm : id ∈ s.processing := (contains_iff_mem _ _).mp hin
  simp [retry, hin, hm, hget, hge]

theorem retry_released_of_below_limit {α : Type} (s : Queue α) (id : String) (item : QueueItem α)
    (hin : s.processing.contains id = true) (hget : mapGet id s.items = some item)
    (hlt : item.processingAttempts < s.retryLimit) :
    retry s id =
      (true, { s with items := mapSet id { item with processingAttempts := item.processingAttempts + 1 } s.items, processing := setDelete id s.processing }) := by
  have hm : id ∈ s.processing := (contains_iff_mem _ _).mp hin
  have hnge : ¬ item.processingAttempts ≥ s.retryLimit := by omega
  simp [retry, hin, hm, hget, hnge]

theorem dequeue_singleton {α : Type} (it : QueueItem α) (i : String) (M r : Nat) (pb : Bool)
    (hid : it.id = i) :
    dequeue (startState it i M r pb) =
      (some it, { startState it i M r pb with processing := [i] }) := by
  simp [dequeue, startState, availableItems, jsSort, insertStable, setAdd, hid]

theorem dequeueRetryCycles_state {α : Type} (it : QueueItem α) (i : String) (M r : Nat) (pb : Bool)
    (hid : it.id = i) :
    ∀ k j, j + k ≤ r →
      dequeueRetryCycles i k (startState { it with processingAttempts := j } i M r pb) =
        startState { it with processingAttempts := j + k } i M r pb := by
  intro k
  induction k with
  | zero =>
    intro j hj
    simp [dequeueRetryCycles]
  | succ k ih =>
    intro j hj
    have hdeq := dequeue_singleton { it with processingAttempts := j } i M r pb hid
    have hcon : ({ startState { it with processingAttempts := j } i M r pb with processing := [i] } : Queue α).processing.contains i = true := by
      simp
    have hget : mapGet i ({ startState { it with processingAttempts := j } i M r pb with processing := [i] } : Queue α).items = some { it with processingAttempts := j } := by
      simp [startState, mapGet_cons_pos]
    have hlt : ({ it with processingAttempts := j } : QueueItem α).processingAttempts <
        ({ startState { it with processingAttempts := j } i M r pb with processing := [i] } : Queue α).retryLimit := by
      show j < r
      omega
    have hretry := retry_released_of_below_limit _ i _ hcon hget hlt
    have hstep : (retry (dequeue (startState { it with processingAttempts := j } i M r pb)).2 i).2 =
        startState { it with processingAttempts := j + 1 } i M r pb := by
      rw [hdeq]
      simp only [hretry]
      simp [startState, mapSet, setDelete]
    show dequeueRetryCycles i k (retry (dequeue (startState { it with processingAttempts := j } i M r pb)).2 i).2 = _
    rw [hstep, ih (j + 1) (by omega)]
    have : j + 1 + k = j + (k + 1) := by omega
    rw [this]

theorem dequeue_none_snd {α : Type} (s : Queue α) (h : (dequeue s).1 = none) :
    (dequeue s).2 = s := by
  unfold dequeue at h ⊢
  by_cases he : s.items.isEmpty = true
  · simp [he]
  · simp only [he, if_false] at h ⊢
    rcases hs : jsSort (dequeueLE s.priorityEnabled) (availableItems s) with _ | ⟨x, t⟩
    · simp [hs]
    · rw [hs] at h
      simp at h

theorem processLoop_fst_iff {α : Type} (s : Queue α) (item : QueueItem α) :
    ∀ procs : List (QueueItem α → ProcOutcome),
      ((processLoop s item procs).1 = true ↔
        ∃ pre post, procs.map (fun p => p item) = pre ++ ProcOutcome.ok true :: post ∧
          ∀ o ∈ pre, o = ProcOutcome.ok false) := by
  intro procs
  induction procs with
  | nil =>
    simp only [processLoop, List.map_nil]
    constructor
    · intro h
      simp at h
    · rintro ⟨pre, post, heq, -⟩
      exact absurd heq (by simp)
  | cons p rest ih =>
    cases hp : p item with
    | threw =>
      simp only [processLoop, hp, List.map_cons]
      constructor
      · intro h
        simp at h
      · rintro ⟨pre, post, heq, hall⟩
        cases pre with
        | nil => simp at heq
        | cons o pre' =>
          rw [List.cons_append] at heq
          have ho : o = ProcOutcome.threw := (List.cons.injEq _ _ _ _ ▸ heq).1.symm
          have := hall o (List.mem_cons_self o pre')
          rw [ho] at this
          exact absurd this (by simp)
    | ok b =>
      cases b with
      | true =>
        simp only [processLoop, hp, List.map_cons]
        constructor
        · intro _
          exact ⟨[], rest.map (fun p => p item), by simp, by simp⟩
        · intro _
          simp
      | false =>
        simp only [processLoop, hp, List.map_cons]
        rw [ih]
        constructor
        · rintro ⟨pre, post, heq, hall⟩
          refine ⟨ProcOutcome.ok false :: pre, post, by simp [heq], ?_⟩
          intro o ho
          rcases List.mem_cons.mp ho with rfl | ho'
          · rfl
          · exact hall o ho'
        · rintro ⟨pre, post, heq, hall⟩
          cases pre with
          | nil =>
            rw [List.nil_append] at heq
            have := (List.cons.injEq _ _ _ _ ▸ heq).1
            simp at this
          | cons o pre' =>
            rw [List.cons_append] at heq
            have htl : rest.map (fun p => p item) = pre' ++ ProcOutcome.ok true :: post :=
              (List.cons.injEq _ _ _ _ ▸ heq).2
            exact ⟨pre', post, htl, fun o' ho' => hall o' (List.mem_cons_of_mem o ho')⟩

theorem processLoop_snd {α : Type} (s : Queue α) (item : QueueItem α) :
    ∀ procs : List (QueueItem α → ProcOutcome),
      ((processLoop s item procs).1 = true → (processLoop s item procs).2 = (complete s item.id).2) ∧
      ((processLoop s item procs).1 = false → (processLoop s item procs).2 = (retry s item.id).2) := by
  intro procs
  induction procs with
  | nil => simp [processLoop]
  | cons p rest ih =>
    cases hp : p item with
    | threw => simp [processLoop, hp]
    | ok b =>
      cases b with
      | true => simp [processLoop, hp]
      | false => simpa [processLoop, hp] using ih

/-! ### Sorting lemmas for the stable sort -/

theorem mem_insertStable {le : β → β → Bool} {x y : β} {l : List β} :
    y ∈ insertStable le x l ↔ y = x ∨ y ∈ l := by
  induction l with
  | nil => simp [insertStable]
  | cons z zs ih =>
    by_cases h : le x z
    · simp [insertStable, h]
    · simp [insertStable, h]
      rw [ih]
      tauto

theorem mem_jsSort {le : β → β → Bool} {y : β} {l : List β} :
    y ∈ jsSort le l ↔ y ∈ l := by
  induction l with
  | nil => simp [jsSort]
  | cons z zs ih =>
    simp [jsSort, mem_insertStable, ih]

theorem jsSort_eq_nil_iff {le : β → β → Bool} {l : List β} :
    jsSort le l = [] ↔ l = [] := by
  cases l with
  | nil => simp [jsSort]
  | cons z zs =>
    simp only [jsSort]
    constructor
    · intro h
      have : z ∈ insertStable le z (jsSort le zs) := mem_insertStable.mpr (Or.inl rfl)
      rw [h] at this
      simp at this
    · intro h
      simp at h

theorem pairwise_insertStable {le : β → β → Bool}
    (htrans : ∀ a b c, le a b = true → le b c = true → le a c = true)
    (htotal : ∀ a b, le a b = true ∨ le b a = true)
    {x : β} {l : List β} (h : l.Pairwise (fun a b => le a b = true)) :
    (insertStable le x l).Pairwise (fun a b => le a b = true) := by
  induction l with
  | nil => simp [insertStable]
  | cons z zs ih =>
    rcases List.pairwise_cons.mp h with ⟨hz, hzs⟩
    by_cases hle : le x z = true
    · simp only [insertStable, hle, if_true]
      refine List.pairwise_cons.mpr ⟨?_, h⟩
      intro b hb
      rcases List.mem_cons.mp hb with rfl | hb'
      · exact hle
      · exact htrans x z b hle (hz b hb')
    · have hzx : le z x = true := (htotal x z).resolve_left hle
      simp only [insertStable, hle, if_false]
      refine List.pairwise_cons.mpr ⟨?_, ih hzs⟩
      intro b hb
      rcases mem_insertStable.mp hb with rfl | hb'
      · exact hzx
      · exact hz b hb'

theorem pairwise_jsSort {le : β → β → Bool}
    (htrans : ∀ a b c, le a b = true → le b c = true → le a c = true)
    (htotal : ∀ a b, le a b = true ∨ le b a = true)
    (l : List β) : (jsSort le l).Pairwise (fun a b => le a b = true) := by
  induction l with
  | nil => simp [jsSort]
  | cons z zs ih =>
    exact pairwise_insertStable htrans htotal ih

theorem jsSort_head_le {le : β → β → Bool}
    (htrans : ∀ a b c, le a b = true → le b c = true → le a c = true)
    (htotal : ∀ a b, le a b = true ∨ le b a = true)
    {l : List β} {a : β} {rest : List β} (h : jsSort le l = a :: rest) :
    ∀ x ∈ l, le a x = true := by
  intro x hx
  have hx' : x ∈ a :: rest := by
    rw [← h]
    exact mem_jsSort.mpr hx
  rcases List.mem_cons.mp hx' with rfl | hx''
  · rcases htotal x x with h' | h' <;> exact h'
  · have hp := pairwise_jsSort htrans htotal l
    rw [h] at hp
    exact (List.pairwise_cons.mp hp).1 x hx''

theorem jsSort_head_split {le : β → β → Bool} :
    ∀ {l : List β} {a : β} {rest : List β}, jsSort le l = a :: rest →
      ∃ l₁ l₂, l = l₁ ++ a :: l₂ ∧ ∀ x ∈ l₁, le x a = false := by
  intro l
  induction l with
  | nil => intro a rest h; simp [jsSort] at h
  | cons y ys ih =>
    intro a rest h
    simp only [jsSort] at h
    rcases hs : jsSort le ys with _ | ⟨b, t⟩
    · rw [hs] at h
      simp [insertStable] at h
      exact ⟨[], ys, by simp [h.1], by simp⟩
    · rw [hs] at h
      by_cases hle : le y b = true
      · simp only [insertStable, hle, if_true] at h
        have ha : a = y := (List.cons.injEq _ _ _ _ ▸ h).1.symm
        exact ⟨[], ys, by simp [ha], by simp⟩
      · simp only [insertStable, hle, if_false] at h
        have ha : a = b := (List.cons.injEq _ _ _ _ ▸ h).1.symm
        subst ha
        rcases ih hs with ⟨m₁, m₂, hys, hm⟩
        refine ⟨y :: m₁, m₂, by simp [hys], ?_⟩
        intro x hx
        rcases List.mem_cons.mp hx with rfl | hx'
        · exact Bool.not_eq_true _ ▸ hle
        · exact hm x hx'

/-! ### Membership lemmas for the set and map operations -/

theorem mem_setAdd {l : List String} {k x : String} :
    x ∈ setAdd k l ↔ x ∈ l ∨ x = k := by
  unfold setAdd
  by_cases hc : l.contains k = true
  · have hk : k ∈ l := (contains_iff_mem _ _).mp hc
    rw [if_pos hc]
    constructor
    · exact Or.inl
    · rintro (h | rfl)
      · exact h
      · exact hk
  · rw [if_neg hc]
    simp [List.mem_append]

theorem mem_setDelete {l : List String} {k x : String} :
    x ∈ setDelete k l ↔ x ∈ l ∧ x ≠ k := by
  unfold setDelete
  simp [List.mem_filter]

theorem mem_mapDelete {β : Type} {l : List (String × β)} {k : String} {kv : String × β}
    (h : kv ∈ mapDelete k l) : kv ∈ l := by
  unfold mapDelete at h
  exact (List.mem_filter.mp h).1

theorem mem_mapSet {β : Type} {l : List (String × β)} {k : String} {v : β} {kv : String × β} :
    kv ∈ mapSet k v l → kv = (k, v) ∨ kv ∈ l := by
  induction l with
  | nil =>
    intro h
    simp [mapSet] at h
    exact Or.inl h
  | cons kv' rest ih =>
    intro h
    by_cases hk : kv'.1 = k
    · rw [show mapSet k v (kv' :: rest) = (k, v) :: rest from by simp [mapSet, hk]] at h
      rcases List.mem_cons.mp h with rfl | h'
      · exact Or.inl rfl
      · exact Or.inr (List.mem_cons_of_mem kv' h')
    · rw [show mapSet k v (kv' :: rest) = kv' :: mapSet k v rest from by simp [mapSet, hk]] at h
      rcases List.mem_cons.mp h with rfl | h'
      · exact Or.inr (List.mem_cons_self _ _)
      · rcases ih h' with h'' | h''
        · exact Or.inl h''
        · exact Or.inr (List.mem_cons_of_mem kv' h'')

/-! ### Invariant preservation for every public operation -/

theorem dequeue_some_elim {α : Type} {s s' : Queue α} {a : QueueItem α}
    (h : dequeue s = (some a, s')) :
    s'.items = s.items ∧ s'.processing = setAdd a.id s.processing ∧
      s'.maxSize = s.maxSize ∧ s'.retryLimit = s.retryLimit ∧
      s'.priorityEnabled = s.priorityEnabled ∧ a ∈ availableItems s ∧
      ∃ rest, jsSort (dequeueLE s.priorityEnabled) (availableItems s) = a :: rest := by
  unfold dequeue at h
  by_cases he : s.items.isEmpty = true
  · rw [if_pos he] at h
    simp at h
  · rw [if_neg he] at h
    rcases hs : jsSort (dequeueLE s.priorityEnabled) (availableItems s) with _ | ⟨x, t⟩
    · rw [hs] at h
      simp at h
    · rw [hs] at h
      simp only [Prod.mk.injEq, Option.some.injEq] at h
      rcases h with ⟨hx, hs'⟩
      rw [hx] at hs
      subst hs'
      refine ⟨rfl, ?_, rfl, rfl, rfl, ?_, ⟨t, by rw [hx]⟩⟩
      · rw [hx]
      · exact mem_jsSort.mp (by rw [hs]; exact List.mem_cons_self a t)

theorem enqueue_wf {α : Type} (s : Queue α) (d : α) (p : Int) (f : String) (n : Nat)
    (h : QueueWF s) : QueueWF (applyOp s (QueueOp.enqueue d p f n)) := by
  show QueueWF (match enqueue s d p f n with | Except.ok r => r.2 | Except.error _ => s)
  rcases he : enqueue s d p f n with e | r
  · exact h
  · unfold enqueue at he
    by_cases hfull : s.items.length ≥ s.maxSize
    · rw [if_pos hfull] at he
      simp at he
    · rw [if_neg hfull] at he
      simp only [Except.ok.injEq] at he
      rw [← he]
      constructor
      · intro kv hkv
        rcases mem_mapSet hkv with rfl | hkv'
        · rfl
        · exact h.1 kv hkv'
      · intro id hid
        show (mapGet id (mapSet f _ s.items)).isSome = true
        rw [mapGet_mapSet]
        by_cases hidf : id = f
        · rw [if_pos hidf]
          rfl
        · rw [if_neg hidf]
          exact h.2 id hid

theorem dequeue_wf {α : Type} (s : Queue α) (h : QueueWF s) : QueueWF (dequeue s).2 := by
  rcases hd : dequeue s with ⟨o, s'⟩
  cases o with
  | none =>
    have hs' : s' = s := by
      have h2 := dequeue_none_snd s (by rw [hd])
      rw [hd] at h2
      exact h2
    rw [hs']
    exact h
  | some a =>
    rcases dequeue_some_elim hd with ⟨hi, hp, -, -, -, hmem, -⟩
    have hval : a ∈ s.items.map Prod.snd := (List.mem_filter.mp hmem).1
    rcases List.mem_map.mp hval with ⟨kv, hkv, hkva⟩
    constructor
    · intro kv' hkv'
      rw [hi] at hkv'
      exact h.1 kv' hkv'
    · intro id hid
      rw [hp] at hid
      rw [hi]
      rcases mem_setAdd.mp hid with hid' | rfl
      · exact h.2 id hid'
      · have hkey : a.id = kv.1 := by
          rw [← hkva]
          exact h.1 kv hkv
        rw [hkey]
        exact mapGet_isSome_of_mem hkv

theorem complete_wf {α : Type} (s : Queue α) (id : String) (h : QueueWF s) :
    QueueWF (complete s id).2 := by
  by_cases hc : s.processing.contains id = true
  · rw [complete_true_of_inflight s id hc]
    constructor
    · intro kv hkv
      exact h.1 kv (mem_mapDelete hkv)
    · intro id' hid'
      show (mapGet id' (mapDelete id s.items)).isSome = true
      rcases mem_setDelete.mp hid' with ⟨hmem, hne⟩
      rw [mapGet_mapDelete_ne _ hne]
      exact h.2 id' hmem
  · rw [complete_false_of_not_inflight s id (by simpa using hc)]
    exact h

theorem retry_wf {α : Type} (s : Queue α) (id : String) (h : QueueWF s) :
    QueueWF (retry s id).2 := by
  by_cases hc : s.processing.contains id = true
  · rcases hg : mapGet id s.items with _ | item
    · have : retry s id = (false, s) := by
        unfold retry
        rw [hc, hg]
        rfl
      rw [this]
      exact h
    · by_cases hge : item.processingAttempts ≥ s.retryLimit
      · rw [retry_exhausted_of_limit s id item hc hg hge]
        constructor
        · intro kv hkv
          exact h.1 kv (mem_mapDelete hkv)
        · intro id' hid'
          show (mapGet id' (mapDelete id s.items)).isSome = true
          rcases mem_setDelete.mp hid' with ⟨hmem, hne⟩
          rw [mapGet_mapDelete_ne _ hne]
          exact h.2 id' hmem
      · rw [retry_released_of_below_limit s id item hc hg (by omega)]
        have hitem : item.id = id := h.1 (id, item) (mapGet_eq_some_elim hg)
        constructor
        · intro kv hkv
          rcases mem_mapSet hkv with rfl | hkv'
          · exact hitem
          · exact h.1 kv hkv'
        · intro id' hid'
          show (mapGet id' (mapSet id _ s.items)).isSome = true
          rw [mapGet_mapSet]
          by_cases hii : id' = id
          · rw [if_pos hii]
            rfl
          · rw [if_neg hii]
            rcases mem_setDelete.mp hid' with ⟨hmem, -⟩
            exact h.2 id' hmem
  · rw [retry_false_of_not_inflight s id (by simpa using hc)]
    exact h

theorem foldl_preserves {σ β : Type} (P : σ → Prop) (f : σ → β → σ)
    (hf : ∀ x b, P x → P (f x b)) : ∀ (l : List β) (x : σ), P x → P (l.foldl f x) := by
  intro l
  induction l with
  | nil => intro x hx; exact hx
  | cons b bs ih =>
    intro x hx
    exact ih (f x b) (hf x b hx)

theorem dequeueMany_wf {α : Type} : ∀ (n : Nat) (s : Queue α),
    QueueWF s → QueueWF (dequeueMany s n).2 := by
  intro n
  induction n with
  | zero => intro s h; exact h
  | succ n ih =>
    intro s h
    show QueueWF (dequeueMany s (n + 1)).2
    unfold dequeueMany
    rcases hd : dequeue s with ⟨o, s'⟩
    have hs' : QueueWF s' := by
      have := dequeue_wf s h
      rw [hd] at this
      exact this
    cases o with
    | none => exact hs'
    | some it => exact ih s' hs'

theorem completeMany_wf {α : Type} (s : Queue α) (ids : List String) (h : QueueWF s) :
    QueueWF (completeMany s ids).2 := by
  refine foldl_preserves (fun acc => QueueWF acc.2) _ ?_ ids ((0, 0), s) h
  intro acc id hacc
  rcases hc : complete acc.2 id with ⟨b, st⟩
  have hst : QueueWF st := by
    have := complete_wf acc.2 id hacc
    rw [hc] at this
    exact this
  cases b with
  | true => simpa [hc] using hst
  | false => simpa [hc] using hst

theorem retryMany_wf {α : Type} (s : Queue α) (ids : List String) (h : QueueWF s) :
    QueueWF (retryMany s ids).2 := by
  refine foldl_preserves (fun acc => QueueWF acc.2) _ ?_ ids ((0, 0), s) h
  intro acc id hacc
  rcases hc : retry acc.2 id with ⟨b, st⟩
  have hst : QueueWF st := by
    have := retry_wf acc.2 id hacc
    rw [hc] at this
    exact this
  cases b with
  | true => simpa [hc] using hst
  | false => simpa [hc] using hst

theorem applyOp_preserves_wf {α : Type} (s : Queue α) (op : QueueOp α) (h : QueueWF s) :
    QueueWF (applyOp s op) := by
  cases op with
  | enqueue d p f n => exact enqueue_wf s d p f n h
  | dequeue => exact dequeue_wf s h
  | peek => exact h
  | complete id => exact complete_wf s id h
  | retry id => exact retry_wf s id h
  | clear =>
    constructor
    · intro kv hkv
      simp [applyOp, clear] at hkv
    · intro id hid
      simp [applyOp, clear] at hid
  | dequeueMany n => exact dequeueMany_wf n s h
  | completeMany ids => exact completeMany_wf s ids h
  | retryMany ids => exact retryMany_wf s ids h

/-! ### Comparator facts and the enqueue phase -/

theorem dequeueLE_true_iff {α : Type} (a b : QueueItem α) :
    dequeueLE true a b = true ↔
      (b.priority < a.priority ∨ (a.priority = b.priority ∧ a.addedAt ≤ b.addedAt)) := by
  unfold dequeueLE
  simp only [if_true]
  by_cases hab : a.priority = b.priority
  · rw [if_pos hab]
    simp [hab]
  · rw [if_neg hab]
    simp [hab]

theorem dequeueLE_false_iff {α : Type} (a b : QueueItem α) :
    dequeueLE false a b = true ↔ a.addedAt ≤ b.addedAt := by
  unfold dequeueLE
  simp

theorem dequeueLE_trans {α : Type} (pb : Bool) (a b c : QueueItem α)
    (h₁ : dequeueLE pb a b = true) (h₂ : dequeueLE pb b c = true) : dequeueLE pb a c = true := by
  cases pb with
  | false =>
    rw [dequeueLE_false_iff] at h₁ h₂ ⊢
    omega
  | true =>
    rw [dequeueLE_true_iff] at h₁ h₂ ⊢
    omega

theorem dequeueLE_total {α : Type} (pb : Bool) (a b : QueueItem α) :
    dequeueLE pb a b = true ∨ dequeueLE pb b a = true := by
  cases pb with
  | false =>
    rw [dequeueLE_false_iff, dequeueLE_false_iff]
    omega
  | true =>
    rw [dequeueLE_true_iff, dequeueLE_true_iff]
    omega

theorem applyEnqueues_spec {α : Type} :
    ∀ (calls : List (EnqueueCall α)) (s : Queue α),
      (∀ c ∈ calls, ∀ kv ∈ s.items, kv.1 ≠ c.freshId) →
      (calls.map EnqueueCall.freshId).Nodup →
      ∃ sel : List (EnqueueCall α), sel.Sublist calls ∧
        (applyEnqueues s calls).items =
          s.items ++ sel.map (fun c => (c.freshId, mkEnqueuedItem s.priorityEnabled c)) ∧
        (applyEnqueues s calls).processing = s.processing ∧
        (applyEnqueues s calls).priorityEnabled = s.priorityEnabled := by
  intro calls
  induction calls with
  | nil =>
    intro s _ _
    exact ⟨[], List.Sublist.refl _, by simp [applyEnqueues], rfl, rfl⟩
  | cons c cs ih =>
    intro s hdisj hnodup
    rw [List.map_cons, List.nodup_cons] at hnodup
    by_cases hfull : s.items.length ≥ s.maxSize
    · have he : enqueue s c.data c.priority c.freshId c.now = .error "Queue is full" := by
        unfold enqueue
        rw [if_pos hfull]
      have happ : applyEnqueues s (c :: cs) = applyEnqueues s cs := by
        show (match enqueue s c.data c.priority c.freshId c.now with
              | Except.ok r => applyEnqueues r.2 cs
              | Except.error _ => applyEnqueues s cs) = applyEnqueues s cs
        rw [he]
      rw [happ]
      rcases ih s (fun c' hc' => hdisj c' (List.mem_cons_of_mem c hc'))
          hnodup.2 with ⟨sel, hsub, hitems, hproc, hpe⟩
      exact ⟨sel, hsub.cons c, hitems, hproc, hpe⟩
    · have hdone : ∀ kv ∈ s.items, kv.1 ≠ c.freshId :=
        fun kv hkv => hdisj c (List.mem_cons_self c cs) kv hkv
      have he : enqueue s c.data c.priority c.freshId c.now =
          Except.ok (c.freshId,
            { s with items := s.items ++ [(c.freshId, mkEnqueuedItem s.priorityEnabled c)] }) := by
        unfold enqueue
        rw [if_neg hfull]
        show Except.ok (c.freshId,
            { s with items := mapSet c.freshId (mkEnqueuedItem s.priorityEnabled c) s.items }) = _
        rw [mapSet_eq_append hdone]
      have happ : applyEnqueues s (c :: cs) =
          applyEnqueues
            { s with items := s.items ++ [(c.freshId, mkEnqueuedItem s.priorityEnabled c)] } cs := by
        show (match enqueue s c.data c.priority c.freshId c.now with
              | Except.ok r => applyEnqueues r.2 cs
              | Except.error _ => applyEnqueues s cs) = _
        rw [he]
      rw [happ]
      have hdisj' : ∀ c' ∈ cs,
          ∀ kv ∈ ({ s with items := s.items ++ [(c.freshId, mkEnqueuedItem s.priorityEnabled c)] } : Queue α).items,
            kv.1 ≠ c'.freshId := by
        intro c' hc' kv hkv
        rcases List.mem_append.mp hkv with hkv' | hkv'
        · exact hdisj c' (List.mem_cons_of_mem c hc') kv hkv'
        · have hkvv : kv = (c.freshId, mkEnqueuedItem s.priorityEnabled c) := by simpa using hkv'
          rw [hkvv]
          intro hcc
          apply hnodup.1
          have hmm : c'.freshId ∈ cs.map EnqueueCall.freshId :=
            List.mem_map_of_mem EnqueueCall.freshId hc'
          rw [show c.freshId = c'.freshId from hcc]
          exact hmm
      rcases ih _ hdisj' hnodup.2 with ⟨sel, hsub, hitems, hproc, hpe⟩
      refine ⟨c :: sel, hsub.cons₂ c, ?_, ?_, ?_⟩
      · rw [hitems]
        show (s.items ++ [(c.freshId, mkEnqueuedItem s.priorityEnabled c)]) ++
            sel.map (fun c' => (c'.freshId, mkEnqueuedItem s.priorityEnabled c')) = _
        simp [List.append_assoc]
      · exact hproc
      · exact hpe

theorem nodup_pairwise_indexOf (l : List String) (h : l.Nodup) :
    l.Pairwise (fun a b => l.indexOf a < l.indexOf b) := by
  rw [List.pairwise_iff_getElem]
  intro i j hi hj hij
  rw [List.indexOf_getElem h i hi, List.indexOf_getElem h j hj]
  exact hij

theorem dequeue_consecutive {α : Type} (ρ : String → Nat) {s s₁ s₂ : Queue α} {a b : QueueItem α}
    (hpe : s.priorityEnabled = true)
    (hts : (s.items.map Prod.snd).Pairwise (fun x y => x.addedAt ≤ y.addedAt))
    (hrk : (s.items.map Prod.snd).Pairwise (fun x y => ρ x.id < ρ y.id))
    (h₁ : dequeue s = (some a, s₁)) (h₂ : dequeue s₁ = (some b, s₂)) :
    b.priority ≤ a.priority ∧
      (a.priority = b.priority → a.addedAt ≤ b.addedAt ∧ ρ a.id ≤ ρ b.id) := by
  rcases dequeue_some_elim h₁ with ⟨hi₁, hp₁, -, -, -, -, rest, hsort⟩
  rcases dequeue_some_elim h₂ with ⟨-, -, -, -, -, hmem₂, -⟩
  -- b is available in s₁, hence available in s and distinct from a
  have hmem₂' := List.mem_filter.mp hmem₂
  have hbval : b ∈ s.items.map Prod.snd := by
    rw [← hi₁]
    exact hmem₂'.1
  have hbnotproc : s₁.processing.contains b.id = false := by
    have := hmem₂'.2
    simp only [Bool.not_eq_true'] at this
    exact this
  rw [hp₁, contains_setAdd] at hbnotproc
  have hbs : s.processing.contains b.id = false := by
    rcases Bool.or_eq_false_iff.mp hbnotproc with ⟨h', -⟩
    exact h'
  have hbne : b.id ≠ a.id := by
    rcases Bool.or_eq_false_iff.mp hbnotproc with ⟨-, h'⟩
    simpa using h'
  have hbavail : b ∈ availableItems s := by
    refine List.mem_filter.mpr ⟨hbval, ?_⟩
    rw [hbs]
    rfl
  -- minimality of the head a over the available items
  rw [hpe] at hsort
  have hab : dequeueLE true a b = true :=
    jsSort_head_le (dequeueLE_trans true) (dequeueLE_total true) hsort b hbavail
  rw [dequeueLE_true_iff] at hab
  constructor
  · omega
  · intro hprio
    have hts' : a.addedAt ≤ b.addedAt := by omega
    refine ⟨hts', ?_⟩
    -- stability: a is the earliest available item of its comparator class
    rcases jsSort_head_split hsort with ⟨l₁, l₂, hsplit, hfirst⟩
    have hts_avail : (availableItems s).Pairwise (fun x y => x.addedAt ≤ y.addedAt) :=
      List.Pairwise.sublist (List.filter_sublist _) hts
    have hrk_avail : (availableItems s).Pairwise (fun x y => ρ x.id < ρ y.id) :=
      List.Pairwise.sublist (List.filter_sublist _) hrk
    rw [hsplit] at hts_avail hrk_avail hbavail
    rcases List.mem_append.mp hbavail with hbl₁ | hbl₂
    · -- b cannot occur before a: its comparator class is not strictly earlier,
      -- and timestamps are non-decreasing along the mapping order
      have hble : dequeueLE true b a = false := hfirst b hbl₁
      have hbts : b.addedAt ≤ a.addedAt := by
        rcases List.pairwise_append.mp hts_avail with ⟨-, -, hcross⟩
        exact hcross b hbl₁ a (List.mem_cons_self a l₂)
      rw [← Bool.not_eq_true, dequeueLE_true_iff] at hble
      omega
    · rcases List.mem_cons.mp hbl₂ with rfl | hbl₂'
      · exact absurd rfl hbne
      · rcases List.pairwise_append.mp hrk_avail with ⟨-, hright, -⟩
        have := (List.pairwise_cons.mp hright).1 b hbl₂'
        omega

theorem dequeueSeq_chain {α : Type} (ρ : String → Nat) :
    ∀ (n : Nat) (s : Queue α), s.priorityEnabled = true →
      (s.items.map Prod.snd).Pairwise (fun x y => x.addedAt ≤ y.addedAt) →
      (s.items.map Prod.snd).Pairwise (fun x y => ρ x.id < ρ y.id) →
      List.Chain' (fun a b => b.priority ≤ a.priority ∧
        (a.priority = b.priority → a.addedAt ≤ b.addedAt ∧ ρ a.id ≤ ρ b.id)) (dequeueSeq s n) := by
  intro n
  induction n with
  | zero =>
    intro s _ _ _
    simp [dequeueSeq]
  | succ n ih =>
    intro s hpe hts hrk
    show List.Chain' _ (dequeueSeq s (n + 1))
    unfold dequeueSeq
    rcases hd : dequeue s with ⟨o, s'⟩
    cases o with
    | none => simp
    | some a =>
      rcases dequeue_some_elim hd with ⟨hi, -, -, -, hpe', -, -⟩
      have hts' : (s'.items.map Prod.snd).Pairwise (fun x y => x.addedAt ≤ y.addedAt) := by
        rw [hi]
        exact hts
      have hrk' : (s'.items.map Prod.snd).Pairwise (fun x y => ρ x.id < ρ y.id) := by
        rw [hi]
        exact hrk
      have hpe'' : s'.priorityEnabled = true := by
        rw [hpe']
        exact hpe
      have htail := ih s' hpe'' hts' hrk'
      rw [List.chain'_cons']
      refine ⟨?_, htail⟩
      intro y hy
      cases n with
      | zero => simp [dequeueSeq] at hy
      | succ m =>
        unfold dequeueSeq at hy
        rcases hd₂ : dequeue s' with ⟨o₂, s₂⟩
        rw [hd₂] at hy
        cases o₂ with
        | none => simp at hy
        | some b =>
          simp only [List.head?_cons, Option.mem_def, Option.some.injEq] at hy
          rw [← hy]
          exact dequeue_consecutive ρ hpe hts hrk hd hd₂

theorem dequeue_eq_none_iff {α : Type} (t : Queue α) :
    (dequeue t).1 = none ↔
      (t.items = [] ∨ ∀ kv ∈ t.items, t.processing.contains kv.2.id = true) := by
  unfold dequeue
  by_cases he : t.items.isEmpty = true
  · rw [if_pos he]
    simp only [true_iff]
    exact Or.inl (List.isEmpty_iff.mp he)
  · rw [if_neg he]
    have hne : t.items ≠ [] := by
      simpa [List.isEmpty_iff] using he
    rcases hs : jsSort (dequeueLE t.priorityEnabled) (availableItems t) with _ | ⟨x, r⟩
    · simp only [true_iff]
      refine Or.inr ?_
      intro kv hkv
      have hav : availableItems t = [] := jsSort_eq_nil_iff.mp hs
      have hcases := List.filter_eq_nil_iff.mp hav kv.2 (List.mem_map_of_mem Prod.snd hkv)
      simpa using hcases
    · constructor
      · intro h
        simp at h
      · rintro (hnil | hall)
        · exact absurd hnil hne
        · have hav : availableItems t = [] := by
            refine List.filter_eq_nil_iff.mpr ?_
            intro it hit
            rcases List.mem_map.mp hit with ⟨kv, hkv, hkvit⟩
            have hkt := hall kv hkv
            rw [← hkvit]
            simp only [hkt]
            simp
          rw [hav] at hs
          simp [jsSort] at hs

/-! ### Date codec roundtrip -/

theorem charToDigit_digitToChar : ∀ d : Nat, d < 10 → charToDigit (digitToChar d) = d := by
  decide

theorem stringToDate_dateToString (t : Nat) : stringToDate (dateToString t) = t := by
  unfold stringToDate dateToString
  show Nat.ofDigits 10 (((((Nat.digits 10 t).map digitToChar).reverse).map charToDigit).reverse) = t
  simp only [List.map_reverse, List.reverse_reverse, List.map_map]
  have h : ∀ d ∈ Nat.digits 10 t, (charToDigit ∘ digitToChar) d = d := by
    intro d hd
    exact charToDigit_digitToChar d (Nat.digits_lt_base (by omega) hd)
  rw [List.map_congr_left h]
  simp only [List.map_id']
  exact Nat.ofDigits_digits 10 t

/-! ## Claim theorems -/

/-- Claim C5: for every queue state, FileStorageAdapter.save followed by
FileStorageAdapter.load reproduces an identical mapping (same ids,
payloads, priorities, attempts counts and addedAt instants) and an
identical in-flight set. -/
theorem storage_save_load_roundtrip {α : Type} (items : List (String × QueueItem α))
    (processing : List String) :
    FileStorageAdapter.load (FileStorageAdapter.save items processing) = (items, processing) := by
  unfold FileStorageAdapter.load FileStorageAdapter.save
  simp only [List.map_map, Prod.mk.injEq]
  constructor
  · conv_rhs => rw [← List.map_id items]
    refine List.map_congr_left ?_
    intro kv _
    simp only [Function.comp_apply, stringToDate_dateToString, List.map_id, id_eq]
  · trivial

/-- Claim C8 exhibit: with a first queue lacking a storage adapter and a
second whose adapter write succeeds, saveAllQueues still initiates every
save (the per-queue outcome list shows the second save succeeded), but the
promise it returns is rejected with the uncaught failure of the first
queue, because the try/catch wraps only the synchronous push of the
promise. -/
theorem saveAllQueues_rejects_on_missing_adapter :
    saveAllQueues
        [{ storageAdapter := none },
         { storageAdapter := some { saveResult := Except.ok () } }] =
      ([Except.error "No storage adapter set", Except.ok ()],
        Except.error "No storage adapter set") := by
  rfl

/-- Claim C9: a falsy option value is silently replaced by the built-in
default: maxSize 0 yields 1000 (so enqueue on such a queue does not fail as
full), retryLimit 0 yields 3, and omitted options give 1000, 3, false. -/
theorem constructor_falsy_defaults :
    (Queue.new { maxSize := some 0 } : Queue Nat).maxSize = 1000 ∧
    (Queue.new { retryLimit := some 0 } : Queue Nat).retryLimit = 3 ∧
    (Queue.new {} : Queue Nat).maxSize = 1000 ∧
    (Queue.new {} : Queue Nat).retryLimit = 3 ∧
    (Queue.new {} : Queue Nat).priorityEnabled = false ∧
    (enqueue (Queue.new { maxSize := some 0 } : Queue Nat) 0 0 "id" 0).isOk = true := by
  decide

/-- Claim C10: in a state satisfying the in-flight subset invariant, the
defensive branch of retry that fails because an in-flight id is missing
from the mapping is unreachable. -/
theorem retry_defensive_branch_unreachable {α : Type} (s : Queue α) (id : String)
    (hinv : ∀ i ∈ s.processing, (mapGet i s.items).isSome = true) :
    retryPath s id ≠ RetryPath.missingItem := by
  unfold retryPath
  by_cases hc : s.processing.contains id = true
  · have hm : id ∈ s.processing := (contains_iff_mem _ _).mp hc
    rcases hg : mapGet id s.items with _ | item
    · have hs := hinv id hm
      rw [hg] at hs
      simp at hs
    · rw [hc]
      simp only [Bool.not_true]
      by_cases hr : item.processingAttempts ≥ s.retryLimit
      · simp [hr]
      · simp [hr]
  · have hc' : s.processing.contains id = false := by
      simpa using hc
    rw [hc']
    simp

/-- Witness for C10 at a concrete state with one in-flight item. -/
theorem retry_defensive_branch_unreachable_witness :
    (∀ i ∈ exampleState.processing, (mapGet i exampleState.items).isSome = true) ∧
      retryPath exampleState "w" ≠ RetryPath.missingItem :=
  ⟨by decide, retry_defensive_branch_unreachable exampleState "w" (by decide)⟩

/-- Claim C7: complete returns false and changes nothing when id is not in
flight (unknown and already-completed ids alike), and completeMany counts
each id independently: with a and c in flight and b never dequeued it
returns 2 succeeded, 1 failed, and leaves the mapping entry of b
untouched. -/
theorem complete_noop_and_completeMany_counts {α : Type} (s : Queue α) (id a b c : String)
    (hid : s.processing.contains id = false)
    (ha : s.processing.contains a = true) (hb : s.processing.contains b = false)
    (hc : s.processing.contains c = true)
    (hba : b ≠ a) (hbc : b ≠ c) (hca : c ≠ a) :
    complete s id = (false, s) ∧
    (completeMany s [a, b, c]).1 = (2, 1) ∧
    mapGet b ((completeMany s [a, b, c]).2).items = mapGet b s.items := by
  have hcb : (setDelete a s.processing).contains b = false := by
    rw [contains_setDelete, hb]
    simp
  have hcc : (setDelete a s.processing).contains c = true := by
    rw [contains_setDelete, hc]
    simp [hca]
  have h1 : complete s a = (true, { s with processing := setDelete a s.processing, items := mapDelete a s.items }) :=
    complete_true_of_inflight s a ha
  have h2 : complete { s with processing := setDelete a s.processing, items := mapDelete a s.items } b = (false, { s with processing := setDelete a s.processing, items := mapDelete a s.items }) :=
    complete_false_of_not_inflight _ b hcb
  have h3 : complete { s with processing := setDelete a s.processing, items := mapDelete a s.items } c = (true, { s with processing := setDelete c (setDelete a s.processing), items := mapDelete c (mapDelete a s.items) }) :=
    complete_true_of_inflight _ c hcc
  refine ⟨complete_false_of_not_inflight s id hid, ?_, ?_⟩
  · simp only [completeMany, List.foldl_cons, List.foldl_nil, h1, h2, h3]
  · simp only [completeMany, List.foldl_cons, List.foldl_nil, h1, h2, h3]
    rw [mapGet_mapDelete_ne _ hbc, mapGet_mapDelete_ne _ hba]

/-- Witness for C7 at a concrete three-item state with a and c in flight. -/
theorem complete_noop_and_completeMany_counts_witness :
    (witnessStateC7.processing.contains "b" = false) ∧
    (witnessStateC7.processing.contains "a" = true) ∧
    (witnessStateC7.processing.contains "c" = true) ∧
    (complete witnessStateC7 "b" = (false, witnessStateC7) ∧
      (completeMany witnessStateC7 ["a", "b", "c"]).1 = (2, 1) ∧
      mapGet "b" ((completeMany witnessStateC7 ["a", "b", "c"]).2).items =
        mapGet "b" witnessStateC7.items) :=
  ⟨by decide, by decide, by decide,
    complete_noop_and_completeMany_counts witnessStateC7 "b" "a" "b" "c"
      (by decide) (by decide) (by decide) (by decide)
      (by decide) (by decide) (by decide)⟩

/-- Claim C2: retry returns false and changes nothing when id is not in
flight; on an in-flight id whose attempts have reached the retry limit it
permanently removes the item from the mapping and the in-flight set and
returns false; otherwise it increments processingAttempts by exactly one,
releases the id from the in-flight set with the item still mapped, and
returns true.  Consequently, on a one-item queue, dequeue/retry succeeds
exactly retryLimit times (attempts counting up by one), and one more
dequeue followed by retry returns false, after which the item is gone from
size and from browse output. -/
theorem retry_semantics_and_exhaustion {α : Type} (it : QueueItem α) (i : String)
    (M r : Nat) (pb : Bool) (hid : it.id = i) (h0 : it.processingAttempts = 0) :
    (∀ (s : Queue α) (id : String), s.processing.contains id = false → retry s id = (false, s)) ∧
    (∀ (s : Queue α) (id : String) (item : QueueItem α),
      s.processing.contains id = true → mapGet id s.items = some item →
      item.processingAttempts ≥ s.retryLimit →
      (retry s id).1 = false ∧ mapGet id ((retry s id).2).items = none ∧
        ((retry s id).2).processing.contains id = false) ∧
    (∀ (s : Queue α) (id : String) (item : QueueItem α),
      s.processing.contains id = true → mapGet id s.items = some item →
      item.processingAttempts < s.retryLimit →
      (retry s id).1 = true ∧
        mapGet id ((retry s id).2).items =
          some { item with processingAttempts := item.processingAttempts + 1 } ∧
        ((retry s id).2).processing.contains id = false) ∧
    (∀ k, k ≤ r → mapGet i (dequeueRetryCycles i k (startState it i M r pb)).items =
      some { it with processingAttempts := k }) ∧
    (∀ k, k < r → (retry (dequeue (dequeueRetryCycles i k (startState it i M r pb))).2 i).1 = true) ∧
    ((retry (dequeue (dequeueRetryCycles i r (startState it i M r pb))).2 i).1 = false ∧
      size ((retry (dequeue (dequeueRetryCycles i r (startState it i M r pb))).2 i).2) = 0 ∧
      ∀ L, browse ((retry (dequeue (dequeueRetryCycles i r (startState it i M r pb))).2 i).2) L = []) := by
  have hit0 : ({ it with processingAttempts := 0 } : QueueItem α) = it := by
    cases it
    simp_all
  have hcyc : ∀ k, k ≤ r → dequeueRetryCycles i k (startState it i M r pb) =
      startState { it with processingAttempts := k } i M r pb := by
    intro k hk
    have := dequeueRetryCycles_state it i M r pb hid k 0 (by omega)
    rw [hit0] at this
    simpa using this
  refine ⟨?_, ?_, ?_, ?_, ?_, ?_⟩
  · intro s id h
    exact retry_false_of_not_inflight s id h
  · intro s id item hin hget hge
    rw [retry_exhausted_of_limit s id item hin hget hge]
    refine ⟨rfl, ?_, ?_⟩
    · show mapGet id (mapDelete id s.items) = none
      unfold mapGet mapDelete
      rw [List.find?_filter]
      simp
    · show (setDelete id s.processing).contains id = false
      rw [contains_setDelete]
      simp
  · intro s id item hin hget hlt
    rw [retry_released_of_below_limit s id item hin hget hlt]
    refine ⟨rfl, ?_, ?_⟩
    · show mapGet id (mapSet id _ s.items) = _
      rw [mapGet_mapSet]
      simp
    · show (setDelete id s.processing).contains id = false
      rw [contains_setDelete]
      simp
  · intro k hk
    rw [hcyc k hk]
    show mapGet i [(i, _)] = _
    exact mapGet_cons_pos rfl
  · intro k hk
    rw [hcyc k (by omega)]
    rw [dequeue_singleton { it with processingAttempts := k } i M r pb hid]
    have hcon : (({ startState { it with processingAttempts := k } i M r pb with processing := [i] } : Queue α)).processing.contains i = true := by simp
    have hget : mapGet i (({ startState { it with processingAttempts := k } i M r pb with processing := [i] } : Queue α)).items = some { it with processingAttempts := k } := by
      show mapGet i [(i, _)] = _
      exact mapGet_cons_pos rfl
    have hlt : ({ it with processingAttempts := k } : QueueItem α).processingAttempts <
        (({ startState { it with processingAttempts := k } i M r pb with processing := [i] } : Queue α)).retryLimit := by
      show k < r
      omega
    rw [retry_released_of_below_limit _ i _ hcon hget hlt]
  · rw [hcyc r (by omega)]
    rw [dequeue_singleton { it with processingAttempts := r } i M r pb hid]
    have hcon : (({ startState { it with processingAttempts := r } i M r pb with processing := [i] } : Queue α)).processing.contains i = true := by simp
    have hget : mapGet i (({ startState { it with processingAttempts := r } i M r pb with processing := [i] } : Queue α)).items = some { it with processingAttempts := r } := by
      show mapGet i [(i, _)] = _
      exact mapGet_cons_pos rfl
    have hge : ({ it with processingAttempts := r } : QueueItem α).processingAttempts ≥
        (({ startState { it with processingAttempts := r } i M r pb with processing := [i] } : Queue α)).retryLimit := by
      show r ≥ r
      omega
    rw [retry_exhausted_of_limit _ i _ hcon hget hge]
    refine ⟨rfl, ?_, ?_⟩
    · show (mapDelete i [(i, _)]).length = 0
      simp [mapDelete]
    · intro L
      show (jsSort _ ((mapDelete i [(i, _)]).map Prod.snd)).take L = []
      simp [mapDelete, jsSort]

/-- Witness for C2 on a concrete one-item queue with retryLimit 3. -/
theorem retry_semantics_and_exhaustion_witness :
    (exampleItem.id = "w") ∧ (exampleItem.processingAttempts = 0) ∧
    ((∀ (s : Queue Nat) (id : String), s.processing.contains id = false → retry s id = (false, s)) ∧
    (∀ (s : Queue Nat) (id : String) (item : QueueItem Nat),
      s.processing.contains id = true → mapGet id s.items = some item →
      item.processingAttempts ≥ s.retryLimit →
      (retry s id).1 = false ∧ mapGet id ((retry s id).2).items = none ∧
        ((retry s id).2).processing.contains id = false) ∧
    (∀ (s : Queue Nat) (id : String) (item : QueueItem Nat),
      s.processing.contains id = true → mapGet id s.items = some item →
      item.processingAttempts < s.retryLimit →
      (retry s id).1 = true ∧
        mapGet id ((retry s id).2).items =
          some { item with processingAttempts := item.processingAttempts + 1 } ∧
        ((retry s id).2).processing.contains id = false) ∧
    (∀ k, k ≤ 3 → mapGet "w" (dequeueRetryCycles "w" k (startState exampleItem "w" 10 3 false)).items =
      some { exampleItem with processingAttempts := k }) ∧
    (∀ k, k < 3 → (retry (dequeue (dequeueRetryCycles "w" k (startState exampleItem "w" 10 3 false))).2 "w").1 = true) ∧
    ((retry (dequeue (dequeueRetryCycles "w" 3 (startState exampleItem "w" 10 3 false))).2 "w").1 = false ∧
      size ((retry (dequeue (dequeueRetryCycles "w" 3 (startState exampleItem "w" 10 3 false))).2 "w").2) = 0 ∧
      ∀ L, browse ((retry (dequeue (dequeueRetryCycles "w" 3 (startState exampleItem "w" 10 3 false))).2 "w").2) L = [])) :=
  ⟨rfl, rfl, retry_semantics_and_exhaustion exampleItem "w" 10 3 false rfl rfl⟩

/-- Claim C3: complete on an in-flight id emits an itemProcessed event; a
subscriber whose allow-list is only itemAdded does not receive it, while
an unfiltered subscriber on the same queue does. -/
theorem itemProcessed_filtering {α : Type} (s : Queue α) (id qn : String) (now : Nat)
    (item : QueueItem α)
    (hin : s.processing.contains id = true) (hget : mapGet id s.items = some item) :
    ∃ e ∈ completeEvents s id qn now,
      e.type = QueueEventType.itemProcessed ∧
      wrapperDelivers (some { eventTypes := some [QueueEventType.itemAdded], filterFn := none }) e
        = false ∧
      wrapperDelivers none e = true := by
  unfold completeEvents
  rw [hin, hget]
  simp only [if_true]
  refine ⟨{ type := .itemProcessed, queueName := qn, timestamp := now, item := some item },
    List.mem_cons_self _ _, rfl, rfl, rfl⟩

/-- Witness for C3 at a concrete state with one in-flight item. -/
theorem itemProcessed_filtering_witness :
    (exampleState.processing.contains "w" = true) ∧
    (mapGet "w" exampleState.items = some exampleItem) ∧
    (∃ e ∈ completeEvents exampleState "w" "q" 9,
      e.type = QueueEventType.itemProcessed ∧
      wrapperDelivers (some { eventTypes := some [QueueEventType.itemAdded], filterFn := none }) e
        = false ∧
      wrapperDelivers none e = true) :=
  ⟨by decide, by decide,
    itemProcessed_filtering exampleState "w" "q" 9 exampleItem (by decide) (by decide)⟩

/-- Claim C4 counterexample: on a one-item queue, running processNext with
processors [throwing, succeeding] is NOT the same as with processors
[returning false, succeeding]: the try/catch of processNext wraps the whole
for loop, so the throw skips the remaining processors, retries the item and
returns false, while the false-returning variant goes on to the second
processor, completes the item and returns true. -/
theorem processNext_throw_not_like_false_cex :
    processNext (startState itemP "p" 1000 3 false)
        [fun _ => ProcOutcome.threw, fun _ => ProcOutcome.ok true] ≠
      processNext (startState itemP "p" 1000 3 false)
        [fun _ => ProcOutcome.ok false, fun _ => ProcOutcome.ok true] := by
  decide

/-- Claim C4 (amended): processNext returns false with no state change when
nothing can be dequeued; otherwise it returns true exactly when some
processor returns success with every earlier processor returning false
(not throwing): a thrown error aborts the loop, skipping the remaining
processors.  On success the dequeued item is completed; on false (every
invoked processor returned false, or one threw) the item is retried. -/
theorem processNext_throw_aborts_loop {α : Type} (s s₁ : Queue α) (item : QueueItem α)
    (procs : List (QueueItem α → ProcOutcome))
    (hdeq : dequeue s = (some item, s₁)) :
    ((processNext s procs).1 = true ↔
      ∃ pre post, procs.map (fun p => p item) = pre ++ ProcOutcome.ok true :: post ∧
        ∀ o ∈ pre, o = ProcOutcome.ok false) ∧
    ((processNext s procs).1 = true → (processNext s procs).2 = (complete s₁ item.id).2) ∧
    ((processNext s procs).1 = false → (processNext s procs).2 = (retry s₁ item.id).2) ∧
    (∀ t : Queue α, (dequeue t).1 = none → processNext t procs = (false, t)) := by
  have hpn : processNext s procs = processLoop s₁ item procs := by
    unfold processNext
    rw [hdeq]
  refine ⟨?_, ?_, ?_, ?_⟩
  · rw [hpn]
    exact processLoop_fst_iff s₁ item procs
  · rw [hpn]
    exact (processLoop_snd s₁ item procs).1
  · rw [hpn]
    exact (processLoop_snd s₁ item procs).2
  · intro t ht
    have hsnd := dequeue_none_snd t ht
    unfold processNext
    rcases hd : dequeue t with ⟨o, t'⟩
    rw [hd] at ht hsnd
    cases o with
    | none => simpa using hsnd
    | some x => simp at ht

/-- Witness for the amended C4 on the concrete one-item queue with the
[throwing, succeeding] processor list. -/
theorem processNext_throw_aborts_loop_witness :
    (dequeue (startState itemP "p" 1000 3 false) =
      (some itemP, { startState itemP "p" 1000 3 false with processing := ["p"] })) ∧
    (((processNext (startState itemP "p" 1000 3 false) procsW).1 = true ↔
      ∃ pre post, procsW.map (fun p => p itemP) = pre ++ ProcOutcome.ok true :: post ∧
        ∀ o ∈ pre, o = ProcOutcome.ok false) ∧
    ((processNext (startState itemP "p" 1000 3 false) procsW).1 = true →
      (processNext (startState itemP "p" 1000 3 false) procsW).2 =
        (complete { startState itemP "p" 1000 3 false with processing := ["p"] } itemP.id).2) ∧
    ((processNext (startState itemP "p" 1000 3 false) procsW).1 = false →
      (processNext (startState itemP "p" 1000 3 false) procsW).2 =
        (retry { startState itemP "p" 1000 3 false with processing := ["p"] } itemP.id).2) ∧
    (∀ t : Queue Nat, (dequeue t).1 = none → processNext t procsW = (false, t))) :=
  ⟨by decide,
    processNext_throw_aborts_loop (startState itemP "p" 1000 3 false)
      { startState itemP "p" 1000 3 false with processing := ["p"] } itemP procsW (by decide)⟩

/-- Claim C6: in every state reachable from a freshly constructed queue by
any sequence of the public operations enqueue, dequeue, peek, complete,
retry, clear, dequeueMany, completeMany and retryMany, the in-flight set is
a subset of the mapping: every in-flight id has an entry in the items
mapping. -/
theorem inflight_subset_invariant {α : Type} (opts : QueueOptions) (ops : List (QueueOp α)) :
    InFlightSubset (applyOps (Queue.new opts) ops) := by
  have h0 : QueueWF (Queue.new opts : Queue α) := by
    constructor
    · intro kv hkv
      simp [Queue.new] at hkv
    · intro id hid
      simp [Queue.new] at hid
  exact (foldl_preserves QueueWF applyOp applyOp_preserves_wf ops (Queue.new opts) h0).2

/-- Claim C1: on a queue built with priorityEnabled true by a sequence of
enqueue calls (fresh uuids; clock non-decreasing), successive dequeue
results have non-increasing priority, and among equal priorities
non-decreasing addedAt and non-decreasing enqueue order; dequeue returns
empty exactly when the mapping is empty or every mapped item is in
flight. -/
theorem dequeue_yields_priority_order {α : Type} (calls : List (EnqueueCall α)) (n : Nat)
    (hnodup : (calls.map EnqueueCall.freshId).Nodup)
    (hmono : List.Chain' (fun x y => x ≤ y) (calls.map EnqueueCall.now)) :
    List.Chain' (fun a b => b.priority ≤ a.priority ∧
      (a.priority = b.priority → a.addedAt ≤ b.addedAt ∧
        List.indexOf a.id (calls.map EnqueueCall.freshId) ≤
          List.indexOf b.id (calls.map EnqueueCall.freshId)))
      (dequeueSeq (applyEnqueues (Queue.new { priorityEnabled := some true }) calls) n) ∧
    (∀ t : Queue α, (dequeue t).1 = none ↔
      (t.items = [] ∨ ∀ kv ∈ t.items, t.processing.contains kv.2.id = true)) := by
  refine ⟨?_, fun t => dequeue_eq_none_iff t⟩
  have hdisj : ∀ c ∈ calls,
      ∀ kv ∈ (Queue.new { priorityEnabled := some true } : Queue α).items, kv.1 ≠ c.freshId := by
    intro c _ kv hkv
    simp [Queue.new] at hkv
  rcases applyEnqueues_spec calls _ hdisj hnodup with ⟨sel, hsub, hitems, -, hpe⟩
  have hpeF : (applyEnqueues (Queue.new { priorityEnabled := some true }) calls
      : Queue α).priorityEnabled = true := hpe.trans rfl
  have hvals : ((applyEnqueues (Queue.new { priorityEnabled := some true }) calls
      : Queue α).items.map Prod.snd) = sel.map (fun c => mkEnqueuedItem true c) := by
    rw [hitems]
    show (([] : List (String × QueueItem α)) ++
        sel.map (fun c => (c.freshId, mkEnqueuedItem true c))).map Prod.snd = _
    simp
  have hmonoP : calls.Pairwise (fun c d => c.now ≤ d.now) :=
    List.pairwise_map.mp (List.chain'_iff_pairwise.mp hmono)
  have hts : ((applyEnqueues (Queue.new { priorityEnabled := some true }) calls
      : Queue α).items.map Prod.snd).Pairwise (fun x y => x.addedAt ≤ y.addedAt) := by
    rw [hvals, List.pairwise_map]
    exact (List.Pairwise.sublist hsub hmonoP).imp
      (fun h => by simpa [mkEnqueuedItem] using h)
  have hcallsrk : calls.Pairwise (fun c d =>
      List.indexOf c.freshId (calls.map EnqueueCall.freshId) <
        List.indexOf d.freshId (calls.map EnqueueCall.freshId)) := by
    have h := nodup_pairwise_indexOf _ hnodup
    rw [List.pairwise_map] at h
    exact h
  have hrk : ((applyEnqueues (Queue.new { priorityEnabled := some true }) calls
      : Queue α).items.map Prod.snd).Pairwise (fun x y =>
        List.indexOf x.id (calls.map EnqueueCall.freshId) <
          List.indexOf y.id (calls.map EnqueueCall.freshId)) := by
    rw [hvals, List.pairwise_map]
    exact (List.Pairwise.sublist hsub hcallsrk).imp
      (fun h => by simpa [mkEnqueuedItem] using h)
  exact dequeueSeq_chain (fun i => List.indexOf i (calls.map EnqueueCall.freshId)) n _
    hpeF hts hrk

/-- Witness for C1 on two concrete enqueue calls with priorities 1 and 5. -/
theorem dequeue_yields_priority_order_witness :
    ((callsW.map EnqueueCall.freshId).Nodup) ∧
    (List.Chain' (fun x y => x ≤ y) (callsW.map EnqueueCall.now)) ∧
    (List.Chain' (fun a b => b.priority ≤ a.priority ∧
      (a.priority = b.priority → a.addedAt ≤ b.addedAt ∧
        List.indexOf a.id (callsW.map EnqueueCall.freshId) ≤
          List.indexOf b.id (callsW.map EnqueueCall.freshId)))
      (dequeueSeq (applyEnqueues (Queue.new { priorityEnabled := some true }) callsW) 3) ∧
    (∀ t : Queue Nat, (dequeue t).1 = none ↔
      (t.items = [] ∨ ∀ kv ∈ t.items, t.processing.contains kv.2.id = true))) :=
  ⟨by decide, by simp [callsW], dequeue_yields_priority_order callsW 3 (by decide) (by simp [callsW])⟩

end SimpleQueue
